import Mathlib

/-!
Verification of the card-deck OCI artifact builder.

This file shallowly embeds the Go program: the card catalog
(`shorthandToFilename`), the deck-file readers (`readDeck`, line-oriented
and JSON variants), the two `buildDeck` variants, the transfer engine
(`oras.Copy`, here `copyStore`), the local save path (`saveDeckLocal`) and
the reader/verifier (`loadDeck`).  File I/O is replaced by passing file
contents and an asset lookup function explicitly; the ORAS library calls
(content-addressed store, digest verification) are modelled from the spec
where noted, since their code is not part of this repository.
-/

set_option autoImplicit false

namespace CardDeck

/-! ### Byte strings and Go string helpers -/

/-- Raw byte payloads are modelled as Lean strings (one character per byte). -/
abbrev Bytes := String

/-- Modelled from the spec: the ASCII case mapping applied per character by
Go strings.ToLower (library code, not in src). -/
def lowerChar (c : Char) : Char :=
  if 65 ≤ c.toNat ∧ c.toNat ≤ 90 then Char.ofNat (c.toNat + 32) else c

/-- Modelled from the spec: Go strings.ToLower (library code, not in src),
restricted to the ASCII case mapping. -/
def toLowerGo (s : String) : String := String.mk (s.data.map lowerChar)

/-- Modelled from the spec: the whitespace test used by Go strings.TrimSpace
(library code, not in src), restricted to ASCII whitespace. -/
def isSpaceGo (c : Char) : Bool :=
  c = ' ' || c = '\t' || c = '\n' || c = '\x0b' || c = '\x0c' || c = '\r'

/-- Drops trailing whitespace characters from a character list. -/
def dropTrailingSpace (l : List Char) : List Char :=
  (l.reverse.dropWhile isSpaceGo).reverse

/-- Modelled from the spec: Go strings.TrimSpace (library code, not in src). -/
def trimSpaceGo (s : String) : String :=
  String.mk (dropTrailingSpace (s.data.dropWhile isSpaceGo))

/-! ### Card catalog (`shorthandToFilename`, src/unnamed/part_003 lines 10-44) -/

/-- The suit table of card.go: last character of a code to suit name. -/
def suits : List (Char × String) :=
  [('c', "clubs"), ('d', "diamonds"), ('s', "spades"), ('h', "hearts")]

/-- The rank table of card.go: leading substring of a code to rank name. -/
def ranks : List (String × String) :=
  [("2", "2"), ("3", "3"), ("4", "4"), ("5", "5"),
   ("6", "6"), ("7", "7"), ("8", "8"), ("9", "9"), ("10", "10"),
   ("j", "jack"), ("q", "queen"), ("k", "king"), ("a", "ace")]

/-- Embeds `shorthandToFilename` (src/unnamed/part_003 lines 24-44): lower-case
and trim the code, reject codes shorter than two characters, look the last
character up in `suits` and the preceding substring up in `ranks`, and render
the filename.  `none` stands for the Go error return. -/
def shorthandToFilename (s : String) : Option String :=
  let t := trimSpaceGo (toLowerGo s)
  if t.data.length < 2 then none
  else
    match t.data.getLast? with
    | none => none
    | some suitChar =>
      match suits.lookup suitChar with
      | none => none
      | some suit =>
        match ranks.lookup (String.mk t.data.dropLast) with
        | none => none
        | some rank => some (rank ++ ("_of_") ++ suit ++ (".png"))

/-- A second definition following the words of the spec (section 4.2): the
parsing rule is stated as lower-case and trim, select the suit by the last
character from the 4-entry table, select the rank by all preceding characters
from the 13-entry table, and produce rank_of_suit.png. -/
def shorthandSpec (s : String) : Option String :=
  let t := trimSpaceGo (toLowerGo s)
  match t.data.getLast? with
  | none => none
  | some last =>
    match suits.lookup last, ranks.lookup (String.mk t.data.dropLast) with
    | some suit, some rank =>
      if t.data.length < 2 then none
      else some (rank ++ ("_of_") ++ suit ++ (".png"))
    | _, _ => none

/-! ### Deck readers (`readDeck`, src/unnamed/part_003 lines 47-64 and 111-121) -/

/-- Models the line splitting done by bufio.Scanner with ScanLines: split the
file contents on newline characters.  A trailing carriage return would be
stripped by the subsequent TrimSpace in any case. -/
def splitLinesGo (content : String) : List String :=
  content.splitOn ("\n")

/-- The scanner loop of `readDeck` (line variant, src/unnamed/part_003 lines
47-64): trim each line, skip blanks and lines starting with the comment
mark, and append the rest to the accumulator in file order. -/
def readDeckLoop (acc : List String) : List String → List String
  | [] => acc
  | line :: rest =>
    let l := trimSpaceGo line
    if l = "" || l.startsWith ("#") then readDeckLoop acc rest
    else readDeckLoop (acc ++ [l]) rest

/-- Embeds `readDeck` (line-oriented variant): one code per line, blank lines
and comment lines ignored.  The file contents are passed directly instead of
being read from a path. -/
def readDeckLines (content : String) : List String :=
  readDeckLoop [] (splitLinesGo content)

/-- Escape decoding for two-character JSON escape sequences. -/
def escChar (c : Char) : Option Char :=
  if c = '"' then some '"'
  else if c = '\\' then some '\\'
  else if c = '/' then some '/'
  else if c = 'n' then some '\n'
  else if c = 't' then some '\t'
  else if c = 'r' then some '\r'
  else none

/-- Parser state for a JSON array of strings.  `inStrEsc` is the state right
after a backslash inside a string literal. -/
inductive JSt where
  | expectOpen
  | expectValueOrEnd (acc : List String)
  | expectValue (acc : List String)
  | inStr (acc : List String) (rev : List Char)
  | inStrEsc (acc : List String) (rev : List Char)
  | expectCommaOrEnd (acc : List String)
  | closed (acc : List String)
deriving DecidableEq

/-- Modelled from the spec: the state machine of a JSON decoder for an array
of strings, standing in for Go encoding/json Unmarshal into a string slice
(library code, not in src).  Whitespace is allowed between tokens; any other
deviation from the grammar is a decode error (`none`). -/
def jsonStep : JSt → List Char → Option (List String)
  | st, [] =>
    match st with
    | .closed acc => some acc.reverse
    | _ => none
  | st, c :: rest =>
    match st with
    | .expectOpen =>
      if isSpaceGo c then jsonStep .expectOpen rest
      else if c = '[' then jsonStep (.expectValueOrEnd []) rest
      else none
    | .expectValueOrEnd acc =>
      if isSpaceGo c then jsonStep (.expectValueOrEnd acc) rest
      else if c = ']' then jsonStep (.closed acc) rest
      else if c = '"' then jsonStep (.inStr acc []) rest
      else none
    | .expectValue acc =>
      if isSpaceGo c then jsonStep (.expectValue acc) rest
      else if c = '"' then jsonStep (.inStr acc []) rest
      else none
    | .inStr acc rev =>
      if c = '"' then jsonStep (.expectCommaOrEnd (String.mk rev.reverse :: acc)) rest
      else if c = '\\' then jsonStep (.inStrEsc acc rev) rest
      else jsonStep (.inStr acc (c :: rev)) rest
    | .inStrEsc acc rev =>
      match escChar c with
      | some ec => jsonStep (.inStr acc (ec :: rev)) rest
      | none => none
    | .expectCommaOrEnd acc =>
      if isSpaceGo c then jsonStep (.expectCommaOrEnd acc) rest
      else if c = ',' then jsonStep (.expectValue acc) rest
      else if c = ']' then jsonStep (.closed acc) rest
      else none
    | .closed acc =>
      if isSpaceGo c then jsonStep (.closed acc) rest
      else none

/-- Decodes a JSON array of strings, or fails on malformed input. -/
def jsonStringArray (s : Bytes) : Option (List String) :=
  jsonStep .expectOpen s.data

/-- Embeds `readDeck` (JSON variant, src/unnamed/part_003 lines 111-121):
unmarshal the file contents as a JSON array of strings.  The file contents
are passed directly instead of being read from a path. -/
def readDeckJson (content : Bytes) : Option (List String) :=
  jsonStringArray content

/-- The characters of the encoding of the tail of a JSON string array (after
the opening bracket and the first element). -/
def encTail : List String → List Char
  | [] => [']']
  | s :: rest => ',' :: '"' :: (s.data ++ '"' :: encTail rest)

/-- The characters of the encoding of a JSON string array. -/
def encChars : List String → List Char
  | [] => ['[', ']']
  | s :: rest => '[' :: '"' :: (s.data ++ '"' :: encTail rest)

/-- The canonical encoding of a list of strings as a JSON array, matching the
output format of Go encoding/json Marshal on a string slice. -/
def encodeJsonArray (l : List String) : Bytes :=
  String.mk (encChars l)

/-- A plain string has no quote, backslash or whitespace-control characters,
so its JSON encoding is the string itself between quotes. -/
def plainString (s : String) : Prop :=
  ∀ c ∈ s.data, c ≠ '"' ∧ c ≠ '\\'

instance (s : String) : Decidable (plainString s) := by
  unfold plainString; infer_instance

/-! ### Data model: descriptors, manifests, blobs, stores (spec section 3) -/

/-- A descriptor of a raw (non-manifest) blob: media type, digest, size and
annotations, as in the OCI image-spec Descriptor used by build and load.
Under the identity digest model the digest field holds the payload bytes. -/
structure Descriptor where
  mediaType : String
  digest : Bytes
  size : Nat
  annotations : List (String × String)
deriving DecidableEq

/-- An OCI manifest as consumed by `loadDeck`: artifact type, optional config
descriptor and ordered layer descriptors. -/
structure Manifest where
  artifactType : String
  config : Option Descriptor
  layers : List Descriptor
deriving DecidableEq

/-- Stored content: either raw bytes or a packed manifest.  Manifest JSON
serialization by oras PackManifest is deterministic and injective, so a
manifest value stands for its serialized bytes. -/
inductive Blob where
  | raw (data : Bytes)
  | man (m : Manifest)
deriving DecidableEq

/-- Modelled from the spec: the Content Addresser (section 4.1; sha256 via the
ORAS library, not in src).  The spec's stated invariant is that equal payloads
give equal digests and unequal payloads give unequal digests, realized here by
the identity embedding of content into digests. -/
def digestOf (b : Blob) : Blob := b

/-- A descriptor of a manifest blob, as bound to tags. -/
structure ManifestDescriptor where
  mediaType : String
  digest : Blob
  size : Nat
deriving DecidableEq

/-- Modelled from the spec: a content-addressed blob store (section 4.4) with
a tag table, covering the in-memory store, the OCI-layout store and the
remote repository uniformly.  Blob entries pair the digest key with the
stored content; tampering with stored bytes changes the content but not the
key under which it is addressed. -/
structure Store where
  blobs : List (Blob × Blob)
  tags : List (String × ManifestDescriptor)
deriving DecidableEq

/-- The store with no blobs and no tags (memory.New, or oci.New on a fresh
directory). -/
def emptyStore : Store := { blobs := [], tags := [] }

/-- Tests whether the store already holds content under the given digest. -/
def hasBlobKey (st : Store) (k : Blob) : Bool :=
  st.blobs.any (fun e => e.1 == k)

/-- Modelled from the spec: putIfAbsent (section 4.4) — store content under
its digest; if the digest is already present, perform no write. -/
def putBlob (st : Store) (content : Blob) : Store :=
  if hasBlobKey st (digestOf content) then st
  else { st with blobs := st.blobs ++ [(digestOf content, content)] }

/-- Modelled from the spec: oras.PushBytes (library code, not in src) — push
raw bytes into the store and return the content-derived descriptor.  The
returned descriptor is computed from the content alone, so a second push of
the same bytes returns the existing descriptor unchanged. -/
def pushBytes (st : Store) (mediaType : String) (data : Bytes) : Store × Descriptor :=
  (putBlob st (Blob.raw data),
   { mediaType := mediaType, digest := data, size := data.length, annotations := [] })

/-- Modelled from the spec: oras.PackManifest (library code, not in src) —
assemble the manifest, push its bytes as a blob, and return its descriptor.
The manifest size in bytes is not tracked by the model. -/
def packManifest (st : Store) (m : Manifest) : Store × ManifestDescriptor :=
  (putBlob st (Blob.man m),
   { mediaType := "application/vnd.oci.image.manifest.v1+json",
     digest := Blob.man m, size := 0 })

/-- Store.Tag: bind a tag to a manifest descriptor, replacing any previous
binding of the same tag. -/
def setTag (st : Store) (tag : String) (d : ManifestDescriptor) : Store :=
  { st with tags := (tag, d) :: st.tags.filter (fun e => decide (e.1 ≠ tag)) }

/-- Resolve: look a tag up in the tag table. -/
def resolveTag (st : Store) (tag : String) : Option ManifestDescriptor :=
  st.tags.lookup tag

/-- Looks content up by digest key, returning the stored content. -/
def lookupBlob (st : Store) (k : Blob) : Option Blob :=
  (st.blobs.find? (fun e => e.1 == k)).map Prod.snd

/-- Modelled from the spec: content.FetchAll with read-side verification
(sections 4.1 and 4.6; library code, not in src) — fetch the content stored
under a digest and recompute its digest; a mismatch is the BlobCorrupted
error, an absent key the BlobNotFound error, both rendered as `none`. -/
def fetchContent (st : Store) (k : Blob) : Option Blob :=
  match lookupBlob st k with
  | none => none
  | some b => if digestOf b = k then some b else none

/-- Fetches and verifies the raw blob referenced by a descriptor. -/
def fetchRaw (st : Store) (d : Descriptor) : Option Bytes :=
  match fetchContent st (Blob.raw d.digest) with
  | some (Blob.raw data) => some data
  | _ => none

/-! ### Artifact builder (`buildDeck`, src/unnamed/part_002) -/

/-- The OCI title annotation key (v1.AnnotationTitle). -/
def titleKey : String := "org.opencontainers.image.title"

/-- The card-code annotation key of the dedup builder variant. -/
def cardKeyUnique : String := "io.github.card-deck.card"

/-- The card-code annotation key of the ordered builder variant. -/
def cardKeyOrdered : String := "vnd.card-deck.card"

/-- The per-card loop shared by both `buildDeck` variants: resolve the code to
a filename through the catalog, load the asset bytes, push them as an
image/png blob and record the annotated descriptor.  `imagesDir` maps a
filename to the bytes of the asset file, `none` standing for a missing file. -/
def buildLayers (cardKey : String) (imagesDir : String → Option Bytes)
    (st : Store) (acc : List Descriptor) : List String → Option (Store × List Descriptor)
  | [] => some (st, acc)
  | code :: rest =>
    match shorthandToFilename code with
    | none => none
    | some filename =>
      match imagesDir filename with
      | none => none
      | some data =>
        let p := pushBytes st ("image/png") data
        let desc := { p.2 with annotations := [(titleKey, filename), (cardKey, code)] }
        buildLayers cardKey imagesDir p.1 (acc ++ [desc]) rest

/-- Embeds `buildDeck` (dedup variant, src/unnamed/part_002 lines 38-105):
push one layer per distinct card code, push the raw deck file as the manifest
config, pack the manifest and tag it in a fresh in-memory store.  The source
iterates a Go map of the distinct codes, whose iteration order the language
does not fix; `ord` is that iteration order, an explicit parameter of the
model.  `deckRaw` is the raw deck file contents and `deckName` its base
filename. -/
def buildDeckUnique (ord : List String) (deckRaw : Bytes) (deckName : String)
    (imagesDir : String → Option Bytes) (tag : String) : Option Store :=
  match buildLayers cardKeyUnique imagesDir emptyStore [] ord with
  | none => none
  | some (st, layers) =>
    let pc := pushBytes st ("application/vnd.card-deck.config+json") deckRaw
    let configDesc := { pc.2 with annotations := [(titleKey, deckName)] }
    let m : Manifest :=
      { artifactType := "application/vnd.card-deck",
        config := some configDesc, layers := layers }
    let pm := packManifest pc.1 m
    some (setTag pm.1 tag pm.2)

/-- Embeds `buildDeck` (ordered variant, src/unnamed/part_002 lines 439-487):
push one layer per card code in deck order, pack the manifest without a
config descriptor and tag it in a fresh in-memory store. -/
def buildDeckOrdered (cards : List String) (imagesDir : String → Option Bytes)
    (tag : String) : Option Store :=
  match buildLayers cardKeyOrdered imagesDir emptyStore [] cards with
  | none => none
  | some (st, layers) =>
    let m : Manifest :=
      { artifactType := "application/vnd.card-deck",
        config := none, layers := layers }
    let pm := packManifest st m
    some (setTag pm.1 tag pm.2)

/-! ### Transfer engine and local save (spec section 4.5, `saveDeckLocal`) -/

/-- Modelled from the spec: the per-descriptor loop of the transfer engine
(section 4.5) — for each referenced descriptor, skip it if the destination
already holds the digest, otherwise fetch the bytes from the source with
verification and put them into the destination. -/
def copyBlobs (src : Store) (dst : Store) : List Descriptor → Option Store
  | [] => some dst
  | d :: rest =>
    if hasBlobKey dst (Blob.raw d.digest) then copyBlobs src dst rest
    else
      match fetchRaw src d with
      | none => none
      | some data => copyBlobs src (pushBytes dst d.mediaType data).1 rest

/-- Modelled from the spec: oras.Copy (section 4.5; library code, not in src)
— resolve the source tag, fetch and walk the manifest (config first, then
layers in order), copy each referenced blob with dedup, then copy the
manifest blob itself and bind the destination tag.  Any failure aborts the
copy before the tag is bound.  The engine is only invoked on tags bound to
manifests, so a tag resolving to a raw blob is a failure. -/
def copyStore (src : Store) (srcTag : String) (dst : Store) (dstTag : String) :
    Option Store :=
  match resolveTag src srcTag with
  | none => none
  | some mdesc =>
    match fetchContent src mdesc.digest with
    | none => none
    | some (Blob.raw _) => none
    | some (Blob.man m) =>
      let descs := (match m.config with | some c => [c] | none => []) ++ m.layers
      match copyBlobs src dst descs with
      | none => none
      | some dst2 => some (setTag (putBlob dst2 (Blob.man m)) dstTag mdesc)

/-- Embeds `saveDeckLocal` (src/unnamed/part_002 lines 158-186): build the
deck with the dedup builder and copy the tagged artifact into a fresh
OCI-layout store. -/
def saveDeckLocal (ord : List String) (deckRaw : Bytes) (deckName : String)
    (imagesDir : String → Option Bytes) (tag : String) : Option Store :=
  match buildDeckUnique ord deckRaw deckName imagesDir tag with
  | none => none
  | some st => copyStore st tag emptyStore tag

/-! ### Reader/verifier (`loadDeck`, src/unnamed/part_002 lines 244-287) -/

/-- The in-memory deck reconstructed by the reader: the card list and the
filename-to-bytes image map. -/
structure DeckServer where
  cards : List String
  images : List (String × Bytes)
deriving DecidableEq

/-- Go map assignment on the image map: replace the value under an existing
key, or append a new binding. -/
def mapInsert (m : List (String × Bytes)) (k : String) (v : Bytes) :
    List (String × Bytes) :=
  if m.any (fun e => e.1 == k) then
    m.map (fun e => if e.1 == k then (k, v) else e)
  else m ++ [(k, v)]

/-- The layer loop of `loadDeck`: skip layers that are not image/png or carry
no title annotation; fetch and digest-verify every other layer, filling the
image map; any fetch failure aborts the load. -/
def loadLayers (src : Store) (images : List (String × Bytes)) :
    List Descriptor → Option (List (String × Bytes))
  | [] => some images
  | layer :: rest =>
    if layer.mediaType ≠ ("image/png") then loadLayers src images rest
    else
      match layer.annotations.lookup titleKey with
      | none => loadLayers src images rest
      | some filename =>
        if filename = "" then loadLayers src images rest
        else
          match fetchRaw src layer with
          | none => none
          | some data => loadLayers src (mapInsert images filename data) rest

/-- Embeds `loadDeck` (src/unnamed/part_002 lines 244-287): resolve the tag,
fetch and decode the manifest, fetch the config and decode it as the JSON
card list, then fetch and verify every image layer.  A missing config
descriptor fails just as fetching the zero descriptor does in the source. -/
def loadDeck (src : Store) (tag : String) : Option DeckServer :=
  match resolveTag src tag with
  | none => none
  | some desc =>
    match fetchContent src desc.digest with
    | none => none
    | some (Blob.raw _) => none
    | some (Blob.man m) =>
      match m.config with
      | none => none
      | some cfg =>
        match fetchRaw src cfg with
        | none => none
        | some configBytes =>
          match jsonStringArray configBytes with
          | none => none
          | some cards =>
            match loadLayers src [] m.layers with
            | none => none
            | some images => some { cards := cards, images := images }

/-! ### Serve-side reference parsing (`openDeck`/`parseRef`, src) -/

/-- Models Go strings.SplitN with separator colon and limit 3. -/
def splitN3Colon (s : String) : List String :=
  match s.splitOn (":") with
  | a :: b :: c :: rest => [a, b, String.intercalate (":") (c :: rest)]
  | parts => parts

/-- Embeds `parseTag` (src/unnamed/part_002 lines 25-34); `parseRef` called by
`openDeck` is not under src, modelled with the same body per the spec's
reference syntax (section 6): the tag defaults to latest when omitted. -/
def parseTag (target : String) : String :=
  match splitN3Colon target with
  | [_, _, t] => t
  | [_, p] => if p.contains '/' then "latest" else p
  | _ => "latest"

/-- The tag selection of `openDeck` (src/unnamed/part_002 lines 214-241): an
existing directory source is opened as an OCI layout with the fixed tag
latest; any other source is parsed as a registry reference. -/
def openDeckTag (isDir : Bool) (source : String) : String :=
  if isDir then "latest" else parseTag source

/-! ### Nondeterministic map order and tampering -/

/-- `ord` is a possible Go map iteration order over the distinct elements of
`cards`: duplicate-free and covering exactly the codes of the deck. -/
def validEnum (ord cards : List String) : Prop :=
  ord.Nodup ∧ (∀ c ∈ ord, c ∈ cards) ∧ (∀ c ∈ cards, c ∈ ord)

instance (ord cards : List String) : Decidable (validEnum ord cards) := by
  unfold validEnum; infer_instance

/-- Replaces the stored content of the i-th blob entry, keeping its digest
key: a bit-flip of the bytes on disk does not move the file. -/
def setValueAt : List (Blob × Blob) → Nat → Blob → List (Blob × Blob)
  | [], _, _ => []
  | e :: rest, 0, b => (e.1, b) :: rest
  | e :: rest, n + 1, b => e :: setValueAt rest n b

/-- Corrupts the store by replacing the content of blob entry `i` with `b`. -/
def tamperAt (st : Store) (i : Nat) (b : Blob) : Store :=
  { st with blobs := setValueAt st.blobs i b }

/-! ### Accessors and well-formedness -/

/-- The config descriptor the dedup builder attaches: the raw deck file with
a title annotation. -/
def builtConfigDesc (deckRaw : Bytes) (deckName : String) : Descriptor :=
  { mediaType := ("application/vnd.card-deck.config+json"), digest := deckRaw,
    size := deckRaw.length, annotations := [(titleKey, deckName)] }

/-- The manifest assembled by the dedup builder. -/
def builtManifest (deckRaw : Bytes) (deckName : String)
    (layers : List Descriptor) : Manifest :=
  { artifactType := ("application/vnd.card-deck"),
    config := some (builtConfigDesc deckRaw deckName), layers := layers }

/-- The descriptor of a packed manifest. -/
def builtManifestDesc (m : Manifest) : ManifestDescriptor :=
  { mediaType := ("application/vnd.oci.image.manifest.v1+json"),
    digest := Blob.man m, size := 0 }

/-- The manifest a tag of the store resolves to, when its blob digest is a
manifest. -/
def taggedManifest (st : Store) (tag : String) : Option Manifest :=
  match resolveTag st tag with
  | none => none
  | some d =>
    match d.digest with
    | Blob.man m => some m
    | Blob.raw _ => none

/-- The card-code annotations of the layers of the tagged manifest, in layer
order. -/
def layerCards (cardKey : String) (st : Store) (tag : String) :
    Option (List (Option String)) :=
  (taggedManifest st tag).map
    (fun m => m.layers.map (fun L => L.annotations.lookup cardKey))

/-- The digest of the config descriptor of the tagged manifest. -/
def configDigest (st : Store) (tag : String) : Option Bytes :=
  (taggedManifest st tag).bind (fun m => m.config.map (fun c => c.digest))

/-- A stored artifact as produced by `saveDeckLocal`: every blob entry is
stored under its own digest, digests are unique, the single tag resolves to a
manifest whose config and image/png, title-annotated layers are all present,
and every stored blob is referenced by the manifest closure. -/
def wfArtifact (st : Store) (tag : String) : Prop :=
  (∀ e ∈ st.blobs, e.2 = e.1) ∧
  (st.blobs.map Prod.fst).Nodup ∧
  ∃ mdesc m cfg,
    st.tags = [(tag, mdesc)] ∧
    mdesc.digest = Blob.man m ∧
    (Blob.man m, Blob.man m) ∈ st.blobs ∧
    m.config = some cfg ∧
    (Blob.raw cfg.digest, Blob.raw cfg.digest) ∈ st.blobs ∧
    (∀ L ∈ m.layers,
      L.mediaType = ("image/png") ∧
      (∃ fn, L.annotations.lookup titleKey = some fn ∧ fn ≠ "") ∧
      (Blob.raw L.digest, Blob.raw L.digest) ∈ st.blobs) ∧
    (∀ e ∈ st.blobs, e.1 = Blob.man m ∨ e.1 = Blob.raw cfg.digest ∨
      ∃ L ∈ m.layers, e.1 = Blob.raw L.digest)

/-! ### Concrete example data shared by the witnesses -/

/-- All valid (rank key, suit character) pairs of the two catalog tables. -/
def validPairs : List (String × Char) :=
  (ranks.map Prod.fst).product (suits.map Prod.fst)

/-- The card code written for a (rank key, suit character) pair. -/
def pairCode (p : String × Char) : String := p.1.push p.2

/-- An example asset directory holding the two images of the end-to-end
scenario. -/
def assetsEx : String → Option Bytes := fun f =>
  if f = "2_of_clubs.png" then some ("PNGDATA2C")
  else if f = "ace_of_diamonds.png" then some ("PNGDATAAD")
  else none

/-- The deck file of the end-to-end scenario. -/
def deckRawEx : Bytes := "[\"2c\",\"ad\"]"

/-- A one-card deck file. -/
def deckRaw1Ex : Bytes := "[\"2c\"]"

/-- A deck file listing the same card twice. -/
def deckRaw2Ex : Bytes := "[\"2c\",\"2c\"]"

/-- The store saved by the end-to-end scenario (in enumeration order 2c, ad). -/
def savedStoreEx : Store :=
  (saveDeckLocal ["2c", "ad"] deckRawEx ("deck.json") assetsEx ("latest")).getD emptyStore

/-- The store built by the ordered builder on the deck 2c, ad. -/
def orderedStoreEx : Store :=
  (buildDeckOrdered ["2c", "ad"] assetsEx ("latest")).getD emptyStore

/-- The store built by the dedup builder on the deck 2c, 2c, ad. -/
def uniqueStoreEx : Store :=
  (buildDeckUnique ["2c", "ad"] ("[\"2c\",\"2c\",\"ad\"]") ("deck.json") assetsEx ("latest")).getD emptyStore

/-- A store saved under the tag v1 rather than latest. -/
def savedV1StoreEx : Store :=
  (saveDeckLocal ["2c"] deckRaw1Ex ("deck.json") assetsEx ("v1")).getD emptyStore

/-! ## Theorems -/

/-! ### String helper lemmas -/

theorem stringMk_data (s : String) : String.mk s.data = s := rfl

theorem charOfNat_toNat (n : Nat) (h : Nat.isValidChar n) :
    (Char.ofNat n).toNat = n := by
  unfold Char.ofNat
  rw [dif_pos h]
  rfl

theorem lowerChar_idem (c : Char) : lowerChar (lowerChar c) = lowerChar c := by
  unfold lowerChar
  by_cases h : 65 ≤ c.toNat ∧ c.toNat ≤ 90
  · rw [if_pos h]
    have hv : Nat.isValidChar (c.toNat + 32) := Or.inl (by omega)
    have ht : (Char.ofNat (c.toNat + 32)).toNat = c.toNat + 32 :=
      charOfNat_toNat _ hv
    rw [if_neg (by omega)]
  · rw [if_neg h, if_neg h]

theorem toLowerGo_idem (s : String) : toLowerGo (toLowerGo s) = toLowerGo s := by
  unfold toLowerGo
  simp [List.map_map, Function.comp_def, lowerChar_idem]

/-! ### C5: the card catalog parsing rule -/

/-- C5: for every input string, `shorthandToFilename` lower-cases and trims
it, selects the suit by the last character and the rank by the preceding
substring from the two fixed tables, renders rank_of_suit.png, and fails on
inputs shorter than two characters or with unknown suit or rank; in
particular the six concrete examples of the spec hold. -/
theorem shorthandToFilename_matches_spec :
    (∀ s, shorthandToFilename s = shorthandSpec s) ∧
    shorthandToFilename ("zz") = none ∧
    shorthandToFilename ("2x") = none ∧
    shorthandToFilename ("") = none ∧
    shorthandToFilename ("2c") = some ("2_of_clubs.png") ∧
    shorthandToFilename ("ad") = some ("ace_of_diamonds.png") ∧
    shorthandToFilename ("10h") = some ("10_of_hearts.png") := by
  refine ⟨fun s => ?_, by decide, by decide, by decide, by decide, by decide, by decide⟩
  simp only [shorthandToFilename, shorthandSpec]
  cases hg : (trimSpaceGo (toLowerGo s)).data.getLast? with
  | none =>
    have h0 : (trimSpaceGo (toLowerGo s)).data = [] := List.getLast?_eq_none_iff.mp hg
    simp [h0]
  | some c =>
    cases hs : suits.lookup c with
    | none => simp [hs]
    | some suit =>
      cases hr : ranks.lookup (String.mk (trimSpaceGo (toLowerGo s)).data.dropLast) with
      | none => simp [hs, hr]
      | some rank => simp [hs, hr]

/-! ### C6: catalog round trip and case insensitivity -/

/-- C6: the 52 valid (rank, suit) pairs are distinct and so are the filenames
`shorthandToFilename` maps their codes to, so the filename determines the
pair; resolving any string equals resolving its lower-cased form, and in
particular the codes AD and ad resolve alike. -/
theorem shorthandToFilename_roundTrip :
    validPairs.Nodup ∧
    (validPairs.map (fun p => shorthandToFilename (pairCode p))).Nodup ∧
    (∀ s, shorthandToFilename s = shorthandToFilename (toLowerGo s)) ∧
    shorthandToFilename ("AD") = shorthandToFilename ("ad") := by
  refine ⟨by decide, by decide, fun s => ?_, by decide⟩
  unfold shorthandToFilename
  rw [toLowerGo_idem]

/-! ### Store lemmas -/

theorem putBlob_hasKey (st : Store) (c : Blob) :
    hasBlobKey (putBlob st c) (digestOf c) = true := by
  unfold putBlob
  by_cases h : hasBlobKey st (digestOf c) = true
  · rw [if_pos h]; exact h
  · rw [if_neg h]
    unfold hasBlobKey
    rw [List.any_eq_true]
    exact ⟨(digestOf c, c), by simp, by simp⟩

theorem putBlob_of_hasKey (st : Store) (c : Blob)
    (h : hasBlobKey st (digestOf c) = true) : putBlob st c = st := by
  unfold putBlob
  rw [if_pos h]

theorem putBlob_idem (st : Store) (c : Blob) :
    putBlob (putBlob st c) c = putBlob st c :=
  putBlob_of_hasKey _ _ (putBlob_hasKey st c)

theorem putBlob_countP (st : Store) (c : Blob)
    (h : st.blobs.countP (fun e => e.1 == c) ≤ 1) :
    (putBlob st c).blobs.countP (fun e => e.1 == c) = 1 := by
  unfold putBlob
  by_cases h1 : hasBlobKey st (digestOf c) = true
  · rw [if_pos h1]
    have hpos : 0 < st.blobs.countP (fun e => e.1 == c) := by
      unfold hasBlobKey digestOf at h1
      rw [List.any_eq_true] at h1
      exact List.countP_pos_iff.mpr h1
    omega
  · rw [if_neg h1]
    have hz : st.blobs.countP (fun e => e.1 == c) = 0 := by
      rw [List.countP_eq_zero]
      intro e he hpe
      unfold hasBlobKey digestOf at h1
      exact h1 (List.any_eq_true.mpr ⟨e, he, hpe⟩)
    simp [List.countP_append, hz, digestOf, List.countP_cons]

/-! ### C7: putIfAbsent dedup idempotence -/

/-- C7: pushing the same bytes into a store twice leaves exactly one stored
blob under their digest; the second push returns the first push's descriptor
unchanged and does not modify the store. -/
theorem putIfAbsent_idempotent (st : Store) (mt : String) (data : Bytes)
    (h : st.blobs.countP (fun e => e.1 == Blob.raw data) ≤ 1) :
    (pushBytes (pushBytes st mt data).1 mt data).1 = (pushBytes st mt data).1 ∧
    (pushBytes (pushBytes st mt data).1 mt data).2 = (pushBytes st mt data).2 ∧
    (pushBytes st mt data).1.blobs.countP (fun e => e.1 == Blob.raw data) = 1 :=
  ⟨putBlob_idem st (Blob.raw data), rfl, putBlob_countP st (Blob.raw data) h⟩

/-! ### JSON decoder lemmas -/

theorem jsonStep_comma (acc : List String) (rest : List Char) :
    jsonStep (.expectCommaOrEnd acc) (',' :: rest) = jsonStep (.expectValue acc) rest := rfl

theorem jsonStep_value_quote (acc : List String) (rest : List Char) :
    jsonStep (.expectValue acc) ('"' :: rest) = jsonStep (.inStr acc []) rest := rfl

theorem jsonStep_open (rest : List Char) :
    jsonStep .expectOpen ('[' :: rest) = jsonStep (.expectValueOrEnd []) rest := rfl

theorem jsonStep_first_quote (acc : List String) (rest : List Char) :
    jsonStep (.expectValueOrEnd acc) ('"' :: rest) = jsonStep (.inStr acc []) rest := rfl

theorem jsonStep_inStr_char (acc : List String) (rev : List Char) (c : Char)
    (rest : List Char) (h1 : ¬ c = '"') (h2 : ¬ c = '\\') :
    jsonStep (.inStr acc rev) (c :: rest) = jsonStep (.inStr acc (c :: rev)) rest := by
  show (if c = '"' then jsonStep (.expectCommaOrEnd (String.mk rev.reverse :: acc)) rest
    else if c = '\\' then jsonStep (.inStrEsc acc rev) rest
    else jsonStep (.inStr acc (c :: rev)) rest) = jsonStep (.inStr acc (c :: rev)) rest
  rw [if_neg h1, if_neg h2]

theorem jsonStep_string (s : List Char) (acc : List String) :
    ∀ rev rest, (∀ c ∈ s, c ≠ '"' ∧ c ≠ '\\') →
    jsonStep (.inStr acc rev) (s ++ '"' :: rest) =
      jsonStep (.expectCommaOrEnd (String.mk (rev.reverse ++ s) :: acc)) rest := by
  induction s with
  | nil =>
    intro rev rest _
    rw [List.append_nil]
    rfl
  | cons c s ih =>
    intro rev rest h
    have hc := h c (by simp)
    rw [List.cons_append, jsonStep_inStr_char acc rev c _ hc.1 hc.2,
      ih (c :: rev) rest (fun x hx => h x (by simp [hx]))]
    simp [List.append_assoc]

theorem jsonStep_tail (l : List String) :
    ∀ acc, (∀ s ∈ l, plainString s) →
    jsonStep (.expectCommaOrEnd acc) (encTail l) = some (acc.reverse ++ l) := by
  induction l with
  | nil =>
    intro acc _
    rw [List.append_nil]
    rfl
  | cons s rest ih =>
    intro acc h
    rw [encTail, jsonStep_comma, jsonStep_value_quote,
      jsonStep_string s.data acc [] (encTail rest) (h s (by simp))]
    rw [List.reverse_nil, List.nil_append, stringMk_data]
    rw [ih (s :: acc) (fun x hx => h x (by simp [hx]))]
    simp

theorem jsonRoundTrip (l : List String) (h : ∀ s ∈ l, plainString s) :
    jsonStringArray (encodeJsonArray l) = some l := by
  cases l with
  | nil => decide
  | cons s rest =>
    show jsonStep .expectOpen (encChars (s :: rest)) = some (s :: rest)
    rw [encChars, jsonStep_open, jsonStep_first_quote,
      jsonStep_string s.data [] [] (encTail rest) (h s (by simp))]
    rw [List.reverse_nil, List.nil_append, stringMk_data]
    rw [jsonStep_tail rest [s] (fun x hx => h x (by simp [hx]))]
    simp

theorem readDeckLoop_filter (lines : List String) :
    ∀ acc, readDeckLoop acc lines =
      acc ++ (lines.map trimSpaceGo).filter
        (fun l => !(l = "" || l.startsWith ("#"))) := by
  induction lines with
  | nil =>
    intro acc
    simp [readDeckLoop]
  | cons line rest ih =>
    intro acc
    simp only [readDeckLoop]
    by_cases hc : (trimSpaceGo line = "" || (trimSpaceGo line).startsWith ("#")) = true
    · rw [if_pos hc, ih acc, List.map_cons, List.filter_cons]
      simp only [hc, Bool.not_true]
      rw [if_neg (by simp)]
    · rw [if_neg hc, ih (acc ++ [trimSpaceGo line]), List.map_cons, List.filter_cons]
      simp only [eq_false_of_ne_true hc, Bool.not_false]
      simp [List.append_assoc]

/-! ### C8: deck-file decoding -/

/-- C8: the line-oriented `readDeck` returns exactly the trimmed, non-blank,
non-comment lines of the file in order; the JSON `readDeck` decodes the
encoding of any list of plain strings back to that list, in order, and
rejects malformed inputs. -/
theorem readDeck_decodes :
    (∀ content, readDeckLines content =
      ((splitLinesGo content).map trimSpaceGo).filter
        (fun l => !(l = "" || l.startsWith ("#")))) ∧
    (∀ l, (∀ s ∈ l, plainString s) → readDeckJson (encodeJsonArray l) = some l) ∧
    readDeckJson ("2c\nad") = none ∧
    readDeckJson ("[\"2c\",") = none ∧
    readDeckJson ("[\"2c\" \"ad\"]") = none :=
  ⟨fun content => readDeckLoop_filter (splitLinesGo content) [],
   fun l h => jsonRoundTrip l h, by decide, by decide, by decide⟩

/-- C8 witness: decoding the encoded deck list 2c, ad returns it in order. -/
theorem readDeck_decodes_witness :
    (∀ s ∈ ["2c", "ad"], plainString s) ∧
    readDeckJson (encodeJsonArray ["2c", "ad"]) = some ["2c", "ad"] :=
  ⟨by decide, (readDeck_decodes.2.1 ["2c", "ad"] (by decide))⟩

/-! ### C1: determinism of the build -/

/-- C1: building the same deck from the same assets twice need not produce
byte-identical manifests: the dedup `buildDeck` variant iterates a Go map of
the distinct card codes, and for the two-card deck 2c, ad both enumeration
orders are possible iteration orders yet they yield different stores and
manifests.  This exhibits the spec's determinism property failing on the
code. -/
theorem buildDeckUnique_order_dependent :
    validEnum ["2c", "ad"] ["2c", "ad"] ∧
    validEnum ["ad", "2c"] ["2c", "ad"] ∧
    buildDeckUnique ["2c", "ad"] deckRawEx ("deck.json") assetsEx ("latest") ≠
      buildDeckUnique ["ad", "2c"] deckRawEx ("deck.json") assetsEx ("latest") := by
  refine ⟨by decide, by decide, by decide⟩

/-! ### C2: layer order -/

/-- C2 counterexample: for the deck listing 2c twice, the only possible map
enumeration is the singleton 2c, and the dedup `buildDeck` then emits a
single layer, so the manifest does not list one layer per input code in
input order. -/
theorem buildDeckUnique_not_input_order :
    validEnum ["2c"] ["2c", "2c"] ∧
    ((buildDeckUnique ["2c"] deckRaw2Ex ("deck.json") assetsEx ("latest")).bind
      (fun st => layerCards cardKeyUnique st ("latest"))) = some [some ("2c")] ∧
    some [some ("2c")] ≠ some (["2c", "2c"].map some) := by
  refine ⟨by decide, by decide, by decide⟩

/-- C7 witness: the second push of the same payload into an initially empty
store is a no-op with the same descriptor, leaving one blob. -/
theorem putIfAbsent_idempotent_witness :
    emptyStore.blobs.countP (fun e => e.1 == Blob.raw ("payload")) ≤ 1 ∧
    ((pushBytes (pushBytes emptyStore ("image/png") ("payload")).1 ("image/png") ("payload")).1 =
        (pushBytes emptyStore ("image/png") ("payload")).1 ∧
      (pushBytes (pushBytes emptyStore ("image/png") ("payload")).1 ("image/png") ("payload")).2 =
        (pushBytes emptyStore ("image/png") ("payload")).2 ∧
      (pushBytes emptyStore ("image/png") ("payload")).1.blobs.countP
          (fun e => e.1 == Blob.raw ("payload")) = 1) :=
  ⟨by decide, putIfAbsent_idempotent emptyStore ("image/png") ("payload") (by decide)⟩

/-! ### Store preservation lemmas -/

theorem putBlob_tags (st : Store) (c : Blob) : (putBlob st c).tags = st.tags := by
  unfold putBlob
  split <;> rfl

theorem putBlob_mem (st : Store) (c : Blob) {e : Blob × Blob}
    (h : e ∈ st.blobs) : e ∈ (putBlob st c).blobs := by
  unfold putBlob
  split
  · exact h
  · exact List.mem_append_left _ h

theorem mem_putBlob (st : Store) (c : Blob) {e : Blob × Blob}
    (h : e ∈ (putBlob st c).blobs) : e ∈ st.blobs ∨ e = (c, c) := by
  unfold putBlob at h
  split at h
  · exact Or.inl h
  · rcases List.mem_append.mp h with h1 | h1
    · exact Or.inl h1
    · right
      simpa [digestOf] using h1

theorem putBlob_diag (st : Store) (c : Blob)
    (h : ∀ e ∈ st.blobs, e.2 = e.1) : ∀ e ∈ (putBlob st c).blobs, e.2 = e.1 := by
  intro e he
  rcases mem_putBlob st c he with h1 | h1
  · exact h e h1
  · rw [h1]

theorem hasBlobKey_iff (st : Store) (k : Blob) :
    hasBlobKey st k = true ↔ ∃ e ∈ st.blobs, e.1 = k := by
  unfold hasBlobKey
  rw [List.any_eq_true]
  constructor
  · rintro ⟨e, he, hpe⟩
    exact ⟨e, he, by simpa using hpe⟩
  · rintro ⟨e, he, hpe⟩
    exact ⟨e, he, by simpa using hpe⟩

theorem putBlob_nodup (st : Store) (c : Blob)
    (h : (st.blobs.map Prod.fst).Nodup) :
    ((putBlob st c).blobs.map Prod.fst).Nodup := by
  unfold putBlob
  split
  · exact h
  · rename_i hk
    rw [List.map_append]
    refine List.Nodup.append h (by simp) ?_
    intro a ha hb
    rw [List.mem_map] at ha
    obtain ⟨e, he, hea⟩ := ha
    have hac : a = digestOf c := by simpa using hb
    exact hk ((hasBlobKey_iff st (digestOf c)).mpr ⟨e, he, by rw [hea, hac]⟩)

theorem putBlob_self_mem (st : Store) (c : Blob)
    (hd : ∀ e ∈ st.blobs, e.2 = e.1) : (c, c) ∈ (putBlob st c).blobs := by
  unfold putBlob
  by_cases h : hasBlobKey st (digestOf c) = true
  · rw [if_pos h]
    obtain ⟨e, he, hke⟩ := (hasBlobKey_iff st (digestOf c)).mp h
    have hde := hd e he
    have hec : e = (c, c) := by
      have h1 : e.1 = c := hke
      exact Prod.ext h1 (by rw [hde, h1])
    rwa [hec] at he
  · rw [if_neg h]
    exact List.mem_append_right _ (by simp [digestOf])

theorem lookupBlob_diag (st : Store) (k : Blob)
    (hd : ∀ e ∈ st.blobs, e.2 = e.1) (hm : (k, k) ∈ st.blobs) :
    lookupBlob st k = some k := by
  unfold lookupBlob
  cases hf : st.blobs.find? (fun e => e.1 == k) with
  | none =>
    have hex : (st.blobs.find? (fun e => e.1 == k)).isSome := by
      rw [List.find?_isSome]
      exact ⟨(k, k), hm, by simp⟩
    rw [hf] at hex
    simp at hex
  | some e =>
    have h1 : e.1 = k := by simpa using List.find?_some hf
    have h2 : e.2 = e.1 := hd e (List.mem_of_find?_eq_some hf)
    simp [h2, h1]

theorem fetchContent_diag (st : Store) (k : Blob)
    (hd : ∀ e ∈ st.blobs, e.2 = e.1) (hm : (k, k) ∈ st.blobs) :
    fetchContent st k = some k := by
  unfold fetchContent
  rw [lookupBlob_diag st k hd hm]
  simp [digestOf]

theorem fetchRaw_diag (st : Store) (d : Descriptor)
    (hd : ∀ e ∈ st.blobs, e.2 = e.1)
    (hm : (Blob.raw d.digest, Blob.raw d.digest) ∈ st.blobs) :
    fetchRaw st d = some d.digest := by
  unfold fetchRaw
  rw [fetchContent_diag st _ hd hm]

theorem fetchContent_eq_key (st : Store) (k b : Blob)
    (h : fetchContent st k = some b) : b = k := by
  unfold fetchContent at h
  cases hl : lookupBlob st k with
  | none =>
    rw [hl] at h
    exact absurd h (by simp)
  | some b2 =>
    rw [hl] at h
    by_cases hb2 : digestOf b2 = k
    · simp only [digestOf] at hb2
      simp [digestOf, hb2] at h
      exact h.symm
    · simp [hb2] at h

theorem fetchRaw_eq_digest (st : Store) (d : Descriptor) (data : Bytes)
    (h : fetchRaw st d = some data) : data = d.digest := by
  unfold fetchRaw at h
  cases hf : fetchContent st (Blob.raw d.digest) with
  | none =>
    rw [hf] at h
    exact absurd h (by simp)
  | some b =>
    have hbk := fetchContent_eq_key st _ b hf
    subst hbk
    rw [hf] at h
    exact (Option.some.inj h).symm

theorem shorthandToFilename_ne_empty (code fn : String)
    (h : shorthandToFilename code = some fn) : fn ≠ "" := by
  simp only [shorthandToFilename] at h
  split at h
  · exact absurd h (by simp)
  · split at h
    · exact absurd h (by simp)
    · split at h
      · exact absurd h (by simp)
      · split at h
        · exact absurd h (by simp)
        · rename_i rank_name
          intro hemp
          rw [← Option.some.inj h] at hemp
          have hl := congrArg String.length hemp
          rw [String.length_append, String.length_append, String.length_append] at hl
          have h4 : (".png" : String).length = 4 := rfl
          have h0 : ("" : String).length = 0 := rfl
          omega

/-! ### Builder loop structure -/

theorem buildLayers_nil_inv (ck : String) (imgs : String → Option Bytes)
    (st : Store) (acc : List Descriptor) (st1 : Store) (ls : List Descriptor)
    (h : buildLayers ck imgs st acc [] = some (st1, ls)) : st1 = st ∧ ls = acc := by
  simp only [buildLayers] at h
  have hp := Option.some.inj h
  exact ⟨(congrArg Prod.fst hp).symm, (congrArg Prod.snd hp).symm⟩

theorem buildLayers_cons_inv (ck : String) (imgs : String → Option Bytes)
    (st : Store) (acc : List Descriptor) (code : String) (rest : List String)
    (st1 : Store) (ls : List Descriptor)
    (h : buildLayers ck imgs st acc (code :: rest) = some (st1, ls)) :
    ∃ filename data,
      shorthandToFilename code = some filename ∧
      imgs filename = some data ∧
      buildLayers ck imgs (putBlob st (Blob.raw data))
        (acc ++ [{ mediaType := ("image/png"), digest := data, size := data.length,
                   annotations := [(titleKey, filename), (ck, code)] }]) rest =
        some (st1, ls) := by
  simp only [buildLayers] at h
  cases hf : shorthandToFilename code with
  | none =>
    rw [hf] at h
    exact absurd h (by simp)
  | some filename =>
    simp only [hf] at h
    cases hi : imgs filename with
    | none =>
      rw [hi] at h
      exact absurd h (by simp)
    | some data =>
      simp only [hi] at h
      exact ⟨filename, data, rfl, hi, h⟩

theorem buildLayers_props (ck : String) (imgs : String → Option Bytes) :
    ∀ codes st acc st1 ls,
    (∀ e ∈ st.blobs, e.2 = e.1) →
    buildLayers ck imgs st acc codes = some (st1, ls) →
      st1.tags = st.tags ∧
      (∀ e ∈ st.blobs, e ∈ st1.blobs) ∧
      (∀ e ∈ st1.blobs, e.2 = e.1) ∧
      ((st.blobs.map Prod.fst).Nodup → (st1.blobs.map Prod.fst).Nodup) ∧
      (∀ d ∈ acc, d ∈ ls) ∧
      (∀ e ∈ st1.blobs, e ∈ st.blobs ∨ ∃ d ∈ ls, e.1 = Blob.raw d.digest) ∧
      (∀ d ∈ ls, d ∈ acc ∨
        (d.mediaType = ("image/png") ∧
          (∃ fn code, code ∈ codes ∧ shorthandToFilename code = some fn ∧
            d.annotations = [(titleKey, fn), (ck, code)]) ∧
          (Blob.raw d.digest, Blob.raw d.digest) ∈ st1.blobs)) := by
  intro codes
  induction codes with
  | nil =>
    intro st acc st1 ls hd h
    obtain ⟨h1, h2⟩ := buildLayers_nil_inv ck imgs st acc st1 ls h
    subst h1
    subst h2
    exact ⟨rfl, fun e he => he, hd, fun hn => hn, fun d hd2 => hd2,
      fun e he => Or.inl he, fun d hd2 => Or.inl hd2⟩
  | cons code rest ih =>
    intro st acc st1 ls hd h
    obtain ⟨filename, data, hfn, hdata, h2⟩ := buildLayers_cons_inv ck imgs st acc code rest st1 ls h
    have hd' : ∀ e ∈ (putBlob st (Blob.raw data)).blobs, e.2 = e.1 :=
      putBlob_diag st (Blob.raw data) hd
    obtain ⟨ptags, pmono, pdiag, pnodup, pacc, pfrom, players⟩ :=
      ih (putBlob st (Blob.raw data)) _ st1 ls hd' h2
    have hdmem := pacc _ (List.mem_append_right acc (List.mem_singleton_self _))
    refine ⟨?_, ?_, pdiag, ?_, ?_, ?_, ?_⟩
    · rw [ptags, putBlob_tags]
    · intro e he
      exact pmono e (putBlob_mem st _ he)
    · intro hn
      exact pnodup (putBlob_nodup st _ hn)
    · intro d hda
      exact pacc d (List.mem_append_left _ hda)
    · intro e he
      rcases pfrom e he with h3 | h3
      · rcases mem_putBlob st _ h3 with h4 | h4
        · exact Or.inl h4
        · refine Or.inr ⟨_, hdmem, ?_⟩
          rw [h4]
      · exact Or.inr h3
    · intro d hdl
      rcases players d hdl with h3 | h3
      · rcases List.mem_append.mp h3 with h4 | h4
        · exact Or.inl h4
        · right
          rw [List.mem_singleton] at h4
          subst h4
          refine ⟨rfl, ⟨filename, code, List.mem_cons_self _ _, hfn, rfl⟩, ?_⟩
          exact pmono _ (putBlob_self_mem st (Blob.raw data) hd)
      · obtain ⟨hm1, hex, hm3⟩ := h3
        obtain ⟨fn2, code2, hc2, hf2, ha2⟩ := hex
        exact Or.inr ⟨hm1, ⟨fn2, code2, List.mem_cons_of_mem _ hc2, hf2, ha2⟩, hm3⟩

theorem buildLayers_cardAnnots (ck : String) (hck : (ck == titleKey) = false)
    (imgs : String → Option Bytes) :
    ∀ codes st acc st1 ls,
    buildLayers ck imgs st acc codes = some (st1, ls) →
      ls.map (fun L => L.annotations.lookup ck) =
        acc.map (fun L => L.annotations.lookup ck) ++ codes.map some := by
  intro codes
  induction codes with
  | nil =>
    intro st acc st1 ls h
    obtain ⟨h1, h2⟩ := buildLayers_nil_inv ck imgs st acc st1 ls h
    subst h2
    simp
  | cons code rest ih =>
    intro st acc st1 ls h
    obtain ⟨filename, data, hfn, hdata, h2⟩ :=
      buildLayers_cons_inv ck imgs st acc code rest st1 ls h
    rw [ih _ _ _ _ h2]
    rw [List.map_append]
    simp [List.lookup, hck, List.append_assoc]

/-! ### Transfer loop structure -/

theorem copyBlobs_props (src : Store) :
    ∀ descs dst out,
    (∀ e ∈ dst.blobs, e.2 = e.1) →
    copyBlobs src dst descs = some out →
      out.tags = dst.tags ∧
      (∀ e ∈ dst.blobs, e ∈ out.blobs) ∧
      (∀ e ∈ out.blobs, e.2 = e.1) ∧
      ((dst.blobs.map Prod.fst).Nodup → (out.blobs.map Prod.fst).Nodup) ∧
      (∀ e ∈ out.blobs, e ∈ dst.blobs ∨ ∃ d ∈ descs, e.1 = Blob.raw d.digest) ∧
      (∀ d ∈ descs, (Blob.raw d.digest, Blob.raw d.digest) ∈ out.blobs) := by
  intro descs
  induction descs with
  | nil =>
    intro dst out hd h
    simp only [copyBlobs] at h
    have hp := Option.some.inj h
    subst hp
    exact ⟨rfl, fun e he => he, hd, fun hn => hn, fun e he => Or.inl he,
      fun d hd2 => absurd hd2 (by simp)⟩
  | cons d rest ih =>
    intro dst out hd h
    simp only [copyBlobs] at h
    by_cases hk : hasBlobKey dst (Blob.raw d.digest) = true
    · rw [if_pos hk] at h
      obtain ⟨ptags, pmono, pdiag, pnodup, pfrom, ppres⟩ := ih dst out hd h
      have hdm : (Blob.raw d.digest, Blob.raw d.digest) ∈ dst.blobs := by
        obtain ⟨e, he, hke⟩ := (hasBlobKey_iff dst (Blob.raw d.digest)).mp hk
        have hde := hd e he
        have hed : e = (Blob.raw d.digest, Blob.raw d.digest) :=
          Prod.ext hke (by rw [hde, hke])
        rwa [hed] at he
      refine ⟨ptags, pmono, pdiag, pnodup, ?_, ?_⟩
      · intro e he
        rcases pfrom e he with h3 | ⟨d2, hd2, hk2⟩
        · exact Or.inl h3
        · exact Or.inr ⟨d2, by simp [hd2], hk2⟩
      · intro d2 hd2
        rcases List.mem_cons.mp hd2 with h3 | h3
        · subst h3
          exact pmono _ hdm
        · exact ppres d2 h3
    · rw [if_neg hk] at h
      cases hf : fetchRaw src d with
      | none =>
        rw [hf] at h
        exact absurd h (by simp)
      | some data =>
        rw [hf] at h
        have hdd : data = d.digest := fetchRaw_eq_digest src d data hf
        subst hdd
        have hd' : ∀ e ∈ (putBlob dst (Blob.raw d.digest)).blobs, e.2 = e.1 :=
          putBlob_diag dst _ hd
        obtain ⟨ptags, pmono, pdiag, pnodup, pfrom, ppres⟩ :=
          ih (putBlob dst (Blob.raw d.digest)) out hd' h
        refine ⟨?_, ?_, pdiag, ?_, ?_, ?_⟩
        · rw [ptags, putBlob_tags]
        · intro e he
          exact pmono e (putBlob_mem dst _ he)
        · intro hn
          exact pnodup (putBlob_nodup dst _ hn)
        · intro e he
          rcases pfrom e he with h3 | ⟨d2, hd2, hk2⟩
          · rcases mem_putBlob dst _ h3 with h4 | h4
            · exact Or.inl h4
            · refine Or.inr ⟨d, by simp, ?_⟩
              rw [h4]
          · exact Or.inr ⟨d2, by simp [hd2], hk2⟩
        · intro d2 hd2
          rcases List.mem_cons.mp hd2 with h3 | h3
          · subst h3
            exact pmono _ (putBlob_self_mem dst (Blob.raw d2.digest) hd)
          · exact ppres d2 h3

/-! ### Well-formedness of built and saved artifacts -/

theorem buildDeckUnique_wf (ord : List String) (deckRaw : Bytes) (deckName : String)
    (imgs : String → Option Bytes) (tag : String) (st : Store)
    (h : buildDeckUnique ord deckRaw deckName imgs tag = some st) :
    wfArtifact st tag := by
  simp only [buildDeckUnique] at h
  cases hb : buildLayers cardKeyUnique imgs emptyStore [] ord with
  | none =>
    rw [hb] at h
    exact absurd h (by simp)
  | some p =>
    obtain ⟨st0, layers⟩ := p
    simp only [hb] at h
    have hst := Option.some.inj h
    subst hst
    obtain ⟨ptags, pmono, pdiag, pnodup, pacc, pfrom, players⟩ :=
      buildLayers_props cardKeyUnique imgs ord emptyStore [] st0 layers (by simp [emptyStore]) hb
    have ht0 : st0.tags = [] := by
      rw [ptags]
      rfl
    have hd1 : ∀ e ∈ (putBlob st0 (Blob.raw deckRaw)).blobs, e.2 = e.1 :=
      putBlob_diag st0 _ pdiag
    refine ⟨?_, ?_, ?_⟩
    · exact putBlob_diag _ _ hd1
    · exact putBlob_nodup _ _ (putBlob_nodup st0 _ (pnodup (by simp [emptyStore])))
    · refine ⟨builtManifestDesc (builtManifest deckRaw deckName layers),
        builtManifest deckRaw deckName layers, builtConfigDesc deckRaw deckName,
        ?_, rfl, ?_, rfl, ?_, ?_, ?_⟩
      · simp [setTag, packManifest, pushBytes, putBlob_tags, ht0, builtManifestDesc,
          builtManifest, builtConfigDesc]
      · exact putBlob_self_mem _ _ hd1
      · exact putBlob_mem _ _ (putBlob_self_mem st0 (Blob.raw deckRaw) pdiag)
      · intro L hL
        rcases players L hL with h3 | ⟨hm1, ⟨fn, code, hcm, hfc, han⟩, hm3⟩
        · exact absurd h3 (by simp)
        · refine ⟨hm1, ⟨fn, ?_, ?_⟩, ?_⟩
          · rw [han]
            simp [List.lookup]
          · exact shorthandToFilename_ne_empty code fn hfc
          · exact putBlob_mem _ _ (putBlob_mem _ _ hm3)
      · intro e he
        rcases mem_putBlob _ _ he with h3 | h3
        · rcases mem_putBlob _ _ h3 with h4 | h4
          · rcases pfrom e h4 with h5 | ⟨d2, hd2, hk2⟩
            · exact absurd h5 (by simp [emptyStore])
            · exact Or.inr (Or.inr ⟨d2, hd2, hk2⟩)
          · right
            left
            rw [h4]
            rfl
        · left
          rw [h3]
          rfl

theorem copyStore_to_empty_wf (src : Store) (t1 t2 : String) (out : Store)
    (hwf : wfArtifact src t1) (h : copyStore src t1 emptyStore t2 = some out) :
    wfArtifact out t2 := by
  obtain ⟨hdiag, hnd, mdesc, m, cfg, htags, hdig, hman, hcfg, hcfgmem, hlayers, hfrom⟩ := hwf
  simp only [copyStore] at h
  have hres : resolveTag src t1 = some mdesc := by
    unfold resolveTag
    rw [htags]
    simp [List.lookup]
  simp only [hres, hdig, fetchContent_diag src (Blob.man m) hdiag hman, hcfg,
    List.singleton_append] at h
  cases hcb : copyBlobs src emptyStore (cfg :: m.layers) with
  | none =>
    rw [hcb] at h
    exact absurd h (by simp)
  | some dst2 =>
    simp only [hcb] at h
    have hout := Option.some.inj h
    subst hout
    obtain ⟨ptags, pmono, pdiag, pnodup, pfrom, ppres⟩ :=
      copyBlobs_props src (cfg :: m.layers) emptyStore dst2 (by simp [emptyStore]) hcb
    refine ⟨?_, ?_, ?_⟩
    · exact putBlob_diag _ _ pdiag
    · exact putBlob_nodup _ _ (pnodup (by simp [emptyStore]))
    · refine ⟨mdesc, m, cfg, ?_, hdig, ?_, hcfg, ?_, ?_, ?_⟩
      · simp [setTag, putBlob_tags, ptags, emptyStore]
      · exact putBlob_self_mem _ _ pdiag
      · exact putBlob_mem _ _ (ppres cfg (List.mem_cons_self _ _))
      · intro L hL
        refine ⟨(hlayers L hL).1, (hlayers L hL).2.1, ?_⟩
        exact putBlob_mem _ _ (ppres L (List.mem_cons_of_mem _ hL))
      · intro e he
        rcases mem_putBlob _ _ he with h3 | h3
        · rcases pfrom e h3 with h4 | ⟨d2, hd2, hk2⟩
          · exact absurd h4 (by simp [emptyStore])
          · rcases List.mem_cons.mp hd2 with h5 | h5
            · subst h5
              exact Or.inr (Or.inl hk2)
            · exact Or.inr (Or.inr ⟨d2, h5, hk2⟩)
        · left
          rw [h3]

theorem saveDeckLocal_wf (ord : List String) (deckRaw : Bytes) (deckName : String)
    (imgs : String → Option Bytes) (tag : String) (st : Store)
    (h : saveDeckLocal ord deckRaw deckName imgs tag = some st) :
    wfArtifact st tag := by
  simp only [saveDeckLocal] at h
  cases hb : buildDeckUnique ord deckRaw deckName imgs tag with
  | none =>
    rw [hb] at h
    exact absurd h (by simp)
  | some src =>
    rw [hb] at h
    exact copyStore_to_empty_wf src tag tag st (buildDeckUnique_wf _ _ _ _ _ _ hb) h

/-! ### Tamper-detection lemmas -/

theorem setValueAt_map_fst (l : List (Blob × Blob)) :
    ∀ i b, (setValueAt l i b).map Prod.fst = l.map Prod.fst := by
  induction l with
  | nil =>
    intro i b
    rfl
  | cons e rest ih =>
    intro i b
    cases i with
    | zero => simp [setValueAt]
    | succ n => simp [setValueAt, ih n b]

theorem find?_setValueAt_ne (l : List (Blob × Blob)) :
    ∀ i b k (hi : i < l.length), (l.get ⟨i, hi⟩).1 ≠ k →
      (setValueAt l i b).find? (fun e => e.1 == k) = l.find? (fun e => e.1 == k) := by
  induction l with
  | nil =>
    intro i b k hi
    simp at hi
  | cons e rest ih =>
    intro i b k hi hne
    cases i with
    | zero =>
      have hbe : (e.1 == k) = false := by
        simpa using hne
      simp only [setValueAt]
      rw [List.find?_cons, List.find?_cons]
      simp [hbe]
    | succ n =>
      simp only [setValueAt]
      rw [List.find?_cons, List.find?_cons]
      cases hpe : (e.1 == k) with
      | true => rfl
      | false =>
        simp only []
        exact ih n b k (by simpa using hi) (by simpa using hne)

theorem find?_setValueAt_self (l : List (Blob × Blob)) :
    ∀ i b k (hi : i < l.length), (l.map Prod.fst).Nodup → (l.get ⟨i, hi⟩).1 = k →
      (setValueAt l i b).find? (fun e => e.1 == k) = some (k, b) := by
  induction l with
  | nil =>
    intro i b k hi
    simp at hi
  | cons e rest ih =>
    intro i b k hi hnd hk
    cases i with
    | zero =>
      have hek : e.1 = k := hk
      simp only [setValueAt]
      rw [List.find?_cons]
      simp [hek]
    | succ n =>
      have hk2 : (rest.get ⟨n, by simpa using hi⟩).1 = k := hk
      have hmem : k ∈ rest.map Prod.fst := by
        rw [← hk2]
        exact List.mem_map_of_mem _ (rest.get_mem _ _)
      have hne : (e.1 == k) = false := by
        have hnin := (List.nodup_cons.mp hnd).1
        simp only [beq_eq_false_iff_ne]
        intro heq
        rw [heq] at hnin
        exact hnin hmem
      simp only [setValueAt]
      rw [List.find?_cons]
      simp only [hne]
      exact ih n b k (by simpa using hi) (List.nodup_cons.mp hnd).2 hk2

theorem lookupBlob_tamper_self (st : Store) (i : Nat) (b : Blob)
    (hi : i < st.blobs.length) (hnd : (st.blobs.map Prod.fst).Nodup) :
    lookupBlob (tamperAt st i b) (st.blobs.get ⟨i, hi⟩).1 = some b := by
  unfold lookupBlob tamperAt
  rw [find?_setValueAt_self st.blobs i b _ hi hnd rfl]
  rfl

theorem fetchContent_tamper_self (st : Store) (i : Nat) (b : Blob)
    (hi : i < st.blobs.length) (hnd : (st.blobs.map Prod.fst).Nodup)
    (hb : b ≠ (st.blobs.get ⟨i, hi⟩).1) :
    fetchContent (tamperAt st i b) (st.blobs.get ⟨i, hi⟩).1 = none := by
  unfold fetchContent
  rw [lookupBlob_tamper_self st i b hi hnd]
  simp only [digestOf]
  rw [if_neg hb]

theorem fetchContent_tamper_other (st : Store) (i : Nat) (b : Blob)
    (hi : i < st.blobs.length) (hd : ∀ e ∈ st.blobs, e.2 = e.1) (k2 : Blob)
    (hne : k2 ≠ (st.blobs.get ⟨i, hi⟩).1) (hm : (k2, k2) ∈ st.blobs) :
    fetchContent (tamperAt st i b) k2 = some k2 := by
  unfold fetchContent
  have hlk : lookupBlob (tamperAt st i b) k2 = lookupBlob st k2 := by
    unfold lookupBlob tamperAt
    rw [find?_setValueAt_ne st.blobs i b k2 hi (fun hcc => hne hcc.symm)]
  rw [hlk, lookupBlob_diag st k2 hd hm]
  simp [digestOf]

theorem loadLayers_tamper_fails (st2 : Store) (k : Blob) :
    ∀ layers images,
    (∀ L ∈ layers, L.mediaType = ("image/png") ∧
      (∃ fn, L.annotations.lookup titleKey = some fn ∧ fn ≠ "")) →
    (∀ L ∈ layers, Blob.raw L.digest ≠ k →
      fetchContent st2 (Blob.raw L.digest) = some (Blob.raw L.digest)) →
    fetchContent st2 k = none →
    (∃ L ∈ layers, Blob.raw L.digest = k) →
    loadLayers st2 images layers = none := by
  intro layers
  induction layers with
  | nil =>
    intro images _ _ _ hex
    simp at hex
  | cons L rest ih =>
    intro images hgood hfetch hnone hex
    obtain ⟨hpng, fn, hfn, hfne⟩ := hgood L (List.mem_cons_self _ _)
    simp only [loadLayers, hfn]
    rw [if_neg (by simp [hpng])]
    rw [if_neg hfne]
    by_cases hLk : Blob.raw L.digest = k
    · have hfr : fetchRaw st2 L = none := by
        unfold fetchRaw
        rw [hLk, hnone]
      rw [hfr]
    · have hfr : fetchRaw st2 L = some L.digest := by
        unfold fetchRaw
        rw [hfetch L (List.mem_cons_self _ _) hLk]
      rw [hfr]
      refine ih (mapInsert images fn L.digest) ?_ ?_ hnone ?_
      · intro L2 hL2
        exact hgood L2 (List.mem_cons_of_mem _ hL2)
      · intro L2 hL2 hne2
        exact hfetch L2 (List.mem_cons_of_mem _ hL2) hne2
      · obtain ⟨L2, hL2, hk2⟩ := hex
        rcases List.mem_cons.mp hL2 with h5 | h5
        · subst h5
          exact absurd hk2 hLk
        · exact ⟨L2, h5, hk2⟩

theorem loadDeck_tamper_of_wf (st : Store) (tag : String) (hwf : wfArtifact st tag)
    (i : Nat) (b : Blob) (hi : i < st.blobs.length)
    (hb : b ≠ (st.blobs.get ⟨i, hi⟩).2) :
    loadDeck (tamperAt st i b) tag = none := by
  obtain ⟨hdiag, hnd, mdesc, m, cfg, htags, hdig, hman, hcfg, hcfgmem, hlayers, hfrom⟩ := hwf
  have hek : (st.blobs.get ⟨i, hi⟩).2 = (st.blobs.get ⟨i, hi⟩).1 :=
    hdiag _ (st.blobs.get_mem _ _)
  have hbk : b ≠ (st.blobs.get ⟨i, hi⟩).1 := by
    rw [← hek]
    exact hb
  have hres : resolveTag (tamperAt st i b) tag = some mdesc := by
    unfold resolveTag tamperAt
    simp only []
    rw [htags]
    simp [List.lookup]
  have hfetchk : fetchContent (tamperAt st i b) (st.blobs.get ⟨i, hi⟩).1 = none :=
    fetchContent_tamper_self st i b hi hnd hbk
  have hother : ∀ k2, k2 ≠ (st.blobs.get ⟨i, hi⟩).1 → (k2, k2) ∈ st.blobs →
      fetchContent (tamperAt st i b) k2 = some k2 := fun k2 h1 h2 =>
    fetchContent_tamper_other st i b hi hdiag k2 h1 h2
  simp only [loadDeck, hres]
  rcases hfrom _ (st.blobs.get_mem _ _) with hkman | hkcfg | ⟨L, hL, hkL⟩
  · rw [hdig, ← hkman, hfetchk]
  · by_cases hcm : (st.blobs.get ⟨i, hi⟩).1 = Blob.man m
    · rw [hdig, ← hcm, hfetchk]
    · rw [hdig, hother (Blob.man m) (fun hcc => hcm hcc.symm) hman]
      simp only [hcfg]
      have hcf : fetchRaw (tamperAt st i b) cfg = none := by
        unfold fetchRaw
        rw [← hkcfg, hfetchk]
      rw [hcf]
  · by_cases hcm : (st.blobs.get ⟨i, hi⟩).1 = Blob.man m
    · rw [hdig, ← hcm, hfetchk]
    · rw [hdig, hother (Blob.man m) (fun hcc => hcm hcc.symm) hman]
      simp only [hcfg]
      by_cases hcc : (st.blobs.get ⟨i, hi⟩).1 = Blob.raw cfg.digest
      · have hcf : fetchRaw (tamperAt st i b) cfg = none := by
          unfold fetchRaw
          rw [← hcc, hfetchk]
        rw [hcf]
      · have hcf : fetchRaw (tamperAt st i b) cfg = some cfg.digest := by
          unfold fetchRaw
          rw [hother (Blob.raw cfg.digest) (fun hcc2 => hcc hcc2.symm) hcfgmem]
        rw [hcf]
        cases hj : jsonStringArray cfg.digest with
        | none => simp [hj]
        | some cards =>
          have hLL : loadLayers (tamperAt st i b) [] m.layers = none := by
            refine loadLayers_tamper_fails (tamperAt st i b) (st.blobs.get ⟨i, hi⟩).1
              m.layers [] ?_ ?_ hfetchk ⟨L, hL, hkL.symm⟩
            · intro L2 hL2
              exact ⟨(hlayers L2 hL2).1, (hlayers L2 hL2).2.1⟩
            · intro L2 hL2 hne2
              exact hother (Blob.raw L2.digest) hne2 (hlayers L2 hL2).2.2
          simp [hj, hLL]

/-! ### C3: tamper detection on load -/

/-- C3: for any artifact successfully written by `saveDeckLocal`, replacing
the stored content of any blob entry with different content makes the next
`loadDeck` fail: the digest re-verification on every fetched blob catches
the corruption, so no deck holding altered bytes is ever returned. -/
theorem loadDeck_detects_tamper (ord : List String) (deckRaw : Bytes)
    (deckName : String) (imgs : String → Option Bytes) (tag : String) (st : Store)
    (i : Nat) (b : Blob)
    (hsave : saveDeckLocal ord deckRaw deckName imgs tag = some st)
    (hi : i < st.blobs.length)
    (hb : b ≠ (st.blobs.get ⟨i, hi⟩).2) :
    loadDeck (tamperAt st i b) tag = none :=
  loadDeck_tamper_of_wf st tag
    (saveDeckLocal_wf ord deckRaw deckName imgs tag st hsave) i b hi hb

/-- C3 witness: corrupting the first stored blob of a concretely saved deck
makes the next load fail. -/
theorem loadDeck_detects_tamper_witness :
    loadDeck (tamperAt savedStoreEx 0 (Blob.raw ("garbage"))) ("latest") = none :=
  loadDeck_detects_tamper ["2c", "ad"] deckRawEx ("deck.json") assetsEx ("latest")
    savedStoreEx 0 (Blob.raw ("garbage")) (by decide) (by decide) (by decide)

/-! ### C2 (amended): the ordered builder preserves input order -/

/-- C2 (amended): in the ordered builder variant, the tagged manifest lists
exactly one layer per input card code, in input order: layer i carries the
i-th code of the deck in its card annotation. -/
theorem buildDeckOrdered_preserves_order (cards : List String)
    (imgs : String → Option Bytes) (tag : String) (st : Store)
    (h : buildDeckOrdered cards imgs tag = some st) :
    layerCards cardKeyOrdered st tag = some (cards.map some) := by
  simp only [buildDeckOrdered] at h
  cases hb : buildLayers cardKeyOrdered imgs emptyStore [] cards with
  | none =>
    rw [hb] at h
    exact absurd h (by simp)
  | some p =>
    obtain ⟨st0, ls⟩ := p
    simp only [hb] at h
    have hst := Option.some.inj h
    subst hst
    have ht0 : st0.tags = [] := by
      obtain ⟨ptags, -⟩ :=
        buildLayers_props cardKeyOrdered imgs cards emptyStore [] st0 ls
          (by simp [emptyStore]) hb
      rw [ptags]
      rfl
    have hmap := buildLayers_cardAnnots cardKeyOrdered (by decide) imgs
      cards emptyStore [] st0 ls hb
    simp only [layerCards, taggedManifest, resolveTag, setTag, packManifest,
      putBlob_tags, ht0]
    simp [List.lookup, hmap]

/-- C2 witness: the ordered builder on the deck 2c, ad produces the layer
annotations 2c, ad in order. -/
theorem buildDeckOrdered_preserves_order_witness :
    layerCards cardKeyOrdered orderedStoreEx ("latest") = some (["2c", "ad"].map some) :=
  buildDeckOrdered_preserves_order ["2c", "ad"] assetsEx ("latest")
    orderedStoreEx (by decide)

/-! ### C4: end-to-end scenario -/

theorem validEnum_pair (ord : List String) (a b : String) (hab : a ≠ b)
    (h : validEnum ord [a, b]) : ord = [a, b] ∨ ord = [b, a] := by
  obtain ⟨hnd, hsub, hsup⟩ := h
  have ha : a ∈ ord := hsup a (by simp)
  have hb : b ∈ ord := hsup b (by simp)
  have hmem : ∀ c ∈ ord, c = a ∨ c = b := by
    intro c hc
    simpa using hsub c hc
  rcases ord with _ | ⟨x, _ | ⟨y, _ | ⟨z, rest⟩⟩⟩
  · simp at ha
  · simp at ha hb
    exact absurd (ha.trans hb.symm) hab
  · rcases hmem x (by simp) with hx | hx <;> rcases hmem y (by simp) with hy | hy
    · subst hx
      subst hy
      simp at hnd
    · subst hx
      subst hy
      exact Or.inl rfl
    · subst hx
      subst hy
      exact Or.inr rfl
    · subst hx
      subst hy
      simp at hnd
  · have hx := hmem x (by simp)
    have hy := hmem y (by simp)
    have hz := hmem z (by simp)
    simp only [List.nodup_cons, List.mem_cons] at hnd
    rcases hx with hx | hx <;> rcases hy with hy | hy <;> rcases hz with hz | hz <;>
      subst_vars <;> simp_all

/-- C4: for either possible map enumeration of the deck 2c, ad, saving it to
a local OCI layout succeeds, the tagged manifest has exactly two layers, and
loading from the layout reconstructs the card list 2c, ad with both image
filenames present in the image map. -/
theorem endToEnd_scenario (ord : List String)
    (henum : validEnum ord ["2c", "ad"]) :
    (saveDeckLocal ord deckRawEx ("deck.json") assetsEx ("latest")).isSome = true ∧
    ((saveDeckLocal ord deckRawEx ("deck.json") assetsEx ("latest")).bind
      (fun st => (taggedManifest st ("latest")).map (fun m => m.layers.length))) = some 2 ∧
    ((saveDeckLocal ord deckRawEx ("deck.json") assetsEx ("latest")).bind
      (fun st => (loadDeck st ("latest")).map (fun d => d.cards))) = some ["2c", "ad"] ∧
    ((saveDeckLocal ord deckRawEx ("deck.json") assetsEx ("latest")).bind
      (fun st => (loadDeck st ("latest")).map (fun d =>
        ((d.images.lookup ("2_of_clubs.png")).isSome,
          (d.images.lookup ("ace_of_diamonds.png")).isSome)))) = some (true, true) := by
  rcases validEnum_pair ord ("2c") ("ad") (by decide) henum with h | h <;> subst h
  · exact ⟨by decide, by decide, by decide, by decide⟩
  · exact ⟨by decide, by decide, by decide, by decide⟩

/-- C4 witness: the scenario instantiated at the enumeration order 2c, ad. -/
theorem endToEnd_scenario_witness :
    validEnum ["2c", "ad"] ["2c", "ad"] ∧
    ((saveDeckLocal ["2c", "ad"] deckRawEx ("deck.json") assetsEx ("latest")).bind
      (fun st => (loadDeck st ("latest")).map (fun d => d.cards))) = some ["2c", "ad"] :=
  ⟨by decide, (endToEnd_scenario ["2c", "ad"] (by decide)).2.2.1⟩

/-! ### C9: dedup by card code with a full config -/

/-- C9: in the dedup builder variant, the layers of the tagged manifest are
exactly the distinct card codes of the deck in map-enumeration order, so a
code occurring several times in the deck contributes exactly one layer
(every deck code occurs exactly once in the enumeration), while the config
blob is the raw deck file bytes and hence still records every occurrence. -/
theorem buildDeckUnique_dedup (cards ord : List String) (deckRaw : Bytes)
    (deckName : String) (imgs : String → Option Bytes) (tag : String) (st : Store)
    (henum : validEnum ord cards)
    (h : buildDeckUnique ord deckRaw deckName imgs tag = some st) :
    layerCards cardKeyUnique st tag = some (ord.map some) ∧
    (∀ c ∈ cards, ord.count c = 1) ∧
    configDigest st tag = some deckRaw := by
  obtain ⟨hnd, -, hsup⟩ := henum
  simp only [buildDeckUnique] at h
  cases hb : buildLayers cardKeyUnique imgs emptyStore [] ord with
  | none =>
    rw [hb] at h
    exact absurd h (by simp)
  | some p =>
    obtain ⟨st0, ls⟩ := p
    simp only [hb] at h
    have hst := Option.some.inj h
    subst hst
    have ht0 : st0.tags = [] := by
      obtain ⟨ptags, -⟩ :=
        buildLayers_props cardKeyUnique imgs ord emptyStore [] st0 ls
          (by simp [emptyStore]) hb
      rw [ptags]
      rfl
    have hmap := buildLayers_cardAnnots cardKeyUnique (by decide) imgs
      ord emptyStore [] st0 ls hb
    refine ⟨?_, ?_, ?_⟩
    · simp only [layerCards, taggedManifest, resolveTag, setTag, packManifest,
        pushBytes, putBlob_tags, ht0]
      simp [List.lookup, hmap]
    · intro c hc
      exact List.count_eq_one_of_mem hnd (hsup c hc)
    · simp only [configDigest, taggedManifest, resolveTag, setTag, packManifest,
        pushBytes, putBlob_tags, ht0]
      simp [List.lookup]

/-- C9 witness: the deck 2c, 2c, ad with enumeration 2c, ad yields one layer
per distinct code and the raw deck file as config. -/
theorem buildDeckUnique_dedup_witness :
    layerCards cardKeyUnique uniqueStoreEx ("latest") = some (["2c", "ad"].map some) ∧
    (∀ c ∈ ["2c", "2c", "ad"], ["2c", "ad"].count c = 1) ∧
    configDigest uniqueStoreEx ("latest") = some ("[\"2c\",\"2c\",\"ad\"]") :=
  buildDeckUnique_dedup ["2c", "2c", "ad"] ["2c", "ad"] ("[\"2c\",\"2c\",\"ad\"]")
    ("deck.json") assetsEx ("latest") uniqueStoreEx (by decide) (by decide)

/-! ### C10: directory sources always serve the tag latest -/

/-- C10: opening a directory source always yields the fixed tag latest no
matter which tag the layout was saved under, so loading a layout saved under
any other tag fails at tag resolution; only non-directory sources have their
tag parsed from the reference. -/
theorem openDeck_dir_always_latest (source : String) (t : String) (st : Store)
    (ht : t ≠ "latest")
    (hsave : saveDeckLocal ["2c"] deckRaw1Ex ("deck.json") assetsEx t = some st) :
    openDeckTag true source = "latest" ∧
    (∀ s2, openDeckTag false s2 = parseTag s2) ∧
    loadDeck st ("latest") = none := by
  refine ⟨rfl, fun s2 => rfl, ?_⟩
  obtain ⟨-, -, mdesc, m, cfg, htags, -, -, -, -, -, -⟩ :=
    saveDeckLocal_wf _ _ _ _ _ _ hsave
  have hres : resolveTag st ("latest") = none := by
    unfold resolveTag
    rw [htags]
    have hbe : (("latest" : String) == t) = false :=
      beq_eq_false_iff_ne.mpr (fun hcc => ht hcc.symm)
    simp [List.lookup, hbe]
  simp [loadDeck, hres]

/-- C10 witness: a layout saved under the tag v1 does not resolve latest. -/
theorem openDeck_dir_always_latest_witness :
    openDeckTag true ("some/dir") = "latest" ∧
    loadDeck savedV1StoreEx ("latest") = none :=
  ⟨(openDeck_dir_always_latest ("some/dir") ("v1") savedV1StoreEx (by decide)
      (by decide)).1,
    (openDeck_dir_always_latest ("some/dir") ("v1") savedV1StoreEx (by decide)
      (by decide)).2.2⟩

end CardDeck
